import Mathlib

/-!
Verification of the cross-tile flood-fill coordination engine
(repository `foolusion/dsa-challenge`, files `challenge/fill.py`,
`challenge/util.py`, `solution/fill.py`).

The embedding mirrors the Python source:
* a pixel surface (`PIL.Image` accessed through `im.load()`) is a total
  function from integer coordinates to colors, with explicit bound checks
  where the Python pixel access would raise `IndexError`;
* Python `set` frontiers are lists with guarded (deduplicating) insertion;
  the pop order of a Python set is arbitrary, the list head stands for the
  popped element;
* the `WorkItems` class is a state record whose methods become state
  transition functions; every method body runs under the single lock
  `self.mu`, so a concurrent execution is an interleaving of these atomic
  transitions.
-/

namespace DsaFill

/-- Local pixel coordinates, `Position`/plain tuples in the source. -/
abbrev Pos : Type := Int × Int

/-- An RGBA color tuple; equality is exact and value-based. -/
abbrev Color : Type := Nat × Nat × Nat × Nat

/-- A tile surface: pixel contents indexed by position (`im.load()`). -/
abbrev Pix : Type := Pos → Color

/-- Tile coordinate in the world grid (`(fx, fy)` in the source). -/
abbrev Tile : Type := Int × Int

/-- The bound check `0 <= x < w and 0 <= y < h` (`fill.py` lines 42-43,
112-113 of the loops); a pixel access outside these bounds raises. -/
def inB (w h : Int) (p : Pos) : Bool :=
  decide (0 ≤ p.1 ∧ p.1 < w ∧ 0 ≤ p.2 ∧ p.2 < h)

/-- Writing one pixel: `pixels[px, py] = to_color`. -/
def setPix (pix : Pix) (p : Pos) (c : Color) : Pix :=
  fun q => if q = p then c else pix q

/-- The nine candidate coordinates `range(px-1, px+2) x range(py-1, py+2)`
of the neighbor comprehension. -/
def neighborCands (p : Pos) : List Pos :=
  [p.1 - 1, p.1, p.1 + 1].flatMap (fun x => [(x, p.2 - 1), (x, p.2 - 0), (x, p.2 + 1)])

/-- The in-bounds 8-neighborhood of `p`, excluding `p` itself
(`fill.py` lines 40-44 and 120-124). -/
def neighbors (w h : Int) (p : Pos) : List Pos :=
  (neighborCands p).filter (fun q => inB w h q && !(q == p))

/-- 8-connectivity: distinct positions whose coordinates differ by at most
one in each axis. -/
def adjacent (p q : Pos) : Prop :=
  p ≠ q ∧ (p.1 - q.1).natAbs ≤ 1 ∧ (p.2 - q.2).natAbs ≤ 1

/-- The finite grid of in-bounds positions, used for the termination
measure of the flood-fill loops. -/
def gridFin (w h : Int) : Finset Pos :=
  Finset.Icc 0 (w - 1) ×ˢ Finset.Icc 0 (h - 1)

theorem inB_iff_mem_gridFin {w h : Int} {p : Pos} :
    inB w h p = true ↔ p ∈ gridFin w h := by
  simp [inB, gridFin, Finset.mem_product, Finset.mem_Icc]
  omega

/-- Number of in-bounds positions not yet visited; strictly decreases
whenever a fresh in-bounds position is marked visited. -/
def remaining (w h : Int) (visited : List Pos) : Nat :=
  ((gridFin w h).filter (fun q => q ∉ visited)).card

theorem remaining_lt {w h : Int} {p : Pos} {visited : List Pos}
    (hb : inB w h p = true) (hv : p ∉ visited) :
    remaining w h (p :: visited) < remaining w h visited := by
  apply Finset.card_lt_card
  constructor
  · intro q hq
    simp only [Finset.mem_filter, List.mem_cons] at hq ⊢
    exact ⟨hq.1, fun hmem => hq.2 (Or.inr hmem)⟩
  · intro hsub
    have hp : p ∈ (gridFin w h).filter (fun q => q ∉ visited) := by
      simp only [Finset.mem_filter]
      exact ⟨inB_iff_mem_gridFin.mp hb, hv⟩
    have := hsub hp
    simp [Finset.mem_filter] at this

theorem mem_neighbors {w h : Int} {p q : Pos} :
    q ∈ neighbors w h p ↔ inB w h q = true ∧ adjacent p q := by
  simp only [neighbors, neighborCands, List.mem_filter, List.mem_flatMap,
    List.mem_cons, List.not_mem_nil, or_false, Bool.and_eq_true,
    Bool.not_eq_true', beq_eq_false_iff_ne, ne_eq, adjacent]
  constructor
  · rintro ⟨⟨x, hx, hq⟩, hb, hne⟩
    obtain ⟨hq1, hq2⟩ : q.1 = x ∧ (q.2 = p.2 - 1 ∨ q.2 = p.2 - 0 ∨ q.2 = p.2 + 1) := by
      rcases hq with h | h | h <;> simp [h]
    exact ⟨hb, fun he => hne he.symm, by omega, by omega⟩
  · rintro ⟨hb, hne, h1, h2⟩
    refine ⟨⟨q.1, by omega, ?_⟩, hb, fun he => hne he.symm⟩
    have h3 : q.2 = p.2 - 1 ∨ q.2 = p.2 - 0 ∨ q.2 = p.2 + 1 := by omega
    rcases h3 with h | h | h
    · exact Or.inl (by rw [← h])
    · exact Or.inr (Or.inl (by rw [← h]))
    · exact Or.inr (Or.inr (by rw [← h]))

/-- The four sets of changed border positions (`class Edges`); lists with
deduplicating insertion stand for the Python sets. -/
structure Edges where
  left : List Pos
  top : List Pos
  right : List Pos
  bottom : List Pos
deriving DecidableEq

/-- `Edges()` — all four sets start empty. -/
def Edges.empty : Edges := ⟨[], [], [], []⟩

/-- `set.add`: insert a position unless already present. -/
def edgeAdd (p : Pos) (l : List Pos) : List Pos :=
  if p ∈ l then l else p :: l

/-- Border classification of a just-changed pixel, `fill.py` lines
111-119: `left` wins over `top` over `right` over `bottom`. -/
def classify (w h : Int) (p : Pos) (e : Edges) : Edges :=
  if p.1 = 0 then { e with left := edgeAdd p e.left }
  else if p.2 = 0 then { e with top := edgeAdd p e.top }
  else if p.1 = w - 1 then { e with right := edgeAdd p e.right }
  else if p.2 = h - 1 then { e with bottom := edgeAdd p e.bottom }
  else e

/-- Result of a `tile_fill` run: final pixels, reported edges, the final
contents of the (caller-aliased) frontier set, and whether the run ended
in an `IndexError` from an out-of-bounds pixel access. -/
structure TFOut where
  pix : Pix
  edges : Edges
  frontier : List Pos
  fault : Bool

/-- The `tile_fill` loop, `fill.py` lines 104-127.  Pops the head of the
frontier (the source pops an arbitrary set element), marks it visited,
reads its color — faulting if out of bounds, mirroring the `IndexError`
of `pixels[px, py]` — and on a `from_color` match writes `to_color`,
classifies the border, and inserts the unvisited in-bounds 8-neighbors
into the frontier.  The `p ∈ visited` branch is unreachable (a Python set
never holds a visited position again) and only re-pops. -/
def tileFillLoop (w h : Int) (fc tc : Color) (pix : Pix) (e : Edges) :
    (frontier : List Pos) → (visited : List Pos) → TFOut
  | [], _ => ⟨pix, e, [], false⟩
  | p :: rest, visited =>
    if hv : p ∈ visited then
      tileFillLoop w h fc tc pix e rest visited
    else if hb : inB w h p then
      if pix p ≠ fc then
        tileFillLoop w h fc tc pix e rest (p :: visited)
      else
        tileFillLoop w h fc tc (setPix pix p tc) (classify w h p e)
          (rest ++ (neighbors w h p).filter
            (fun q => !decide (q ∈ p :: visited) && !decide (q ∈ rest)))
          (p :: visited)
    else ⟨pix, e, rest, true⟩
  termination_by frontier visited => (remaining w h visited, frontier.length)
  decreasing_by
  · exact Prod.Lex.right _ (Nat.lt_succ_self _)
  · exact Prod.Lex.left _ _ (remaining_lt hb hv)
  · exact Prod.Lex.left _ _ (remaining_lt hb hv)

/-- `tile_fill(im, tile_positions, from_color, to_color)`,
`fill.py` lines 77-128. -/
def tileFill (w h : Int) (fc tc : Color) (pix : Pix) (seeds : List Pos) : TFOut :=
  tileFillLoop w h fc tc pix Edges.empty seeds []

/-- The single-surface `fill` loop, `fill.py` lines 33-47: identical to
the tile loop but matching against the start color and tracking no edges;
`none` models the `IndexError` of an out-of-bounds access. -/
def fillLoop (w h : Int) (start colr : Color) (pix : Pix) :
    (frontier : List Pos) → (visited : List Pos) → Option Pix
  | [], _ => some pix
  | p :: rest, visited =>
    if hv : p ∈ visited then
      fillLoop w h start colr pix rest visited
    else if hb : inB w h p then
      if pix p ≠ start then
        fillLoop w h start colr pix rest (p :: visited)
      else
        fillLoop w h start colr (setPix pix p colr)
          (rest ++ (neighbors w h p).filter
            (fun q => !decide (q ∈ p :: visited) && !decide (q ∈ rest)))
          (p :: visited)
    else none
  termination_by frontier visited => (remaining w h visited, frontier.length)
  decreasing_by
  · exact Prod.Lex.right _ (Nat.lt_succ_self _)
  · exact Prod.Lex.left _ _ (remaining_lt hb hv)
  · exact Prod.Lex.left _ _ (remaining_lt hb hv)

/-- `fill(image, position, color)`, `fill.py` lines 13-47: reads the
start color at the seed (raising if the seed is out of bounds) and runs
the loop from the singleton frontier. -/
def fill (w h : Int) (pix : Pix) (seed : Pos) (colr : Color) : Option Pix :=
  if inB w h seed then fillLoop w h (pix seed) colr pix [seed] [] else none

section LoopEquations

variable {w h : Int} {fc tc start colr : Color} {pix : Pix} {e : Edges}
variable {p : Pos} {rest visited : List Pos}

theorem tileFillLoop_nil :
    tileFillLoop w h fc tc pix e [] visited = ⟨pix, e, [], false⟩ := by
  rw [tileFillLoop]

theorem tileFillLoop_visited (hv : p ∈ visited) :
    tileFillLoop w h fc tc pix e (p :: rest) visited =
      tileFillLoop w h fc tc pix e rest visited := by
  rw [tileFillLoop]
  simp [hv]

theorem tileFillLoop_skip (hv : p ∉ visited) (hb : inB w h p = true)
    (hc : pix p ≠ fc) :
    tileFillLoop w h fc tc pix e (p :: rest) visited =
      tileFillLoop w h fc tc pix e rest (p :: visited) := by
  rw [tileFillLoop]
  simp [hv, hb, hc]

theorem tileFillLoop_write (hv : p ∉ visited) (hb : inB w h p = true)
    (hc : pix p = fc) :
    tileFillLoop w h fc tc pix e (p :: rest) visited =
      tileFillLoop w h fc tc (setPix pix p tc) (classify w h p e)
        (rest ++ (neighbors w h p).filter
          (fun q => !decide (q ∈ p :: visited) && !decide (q ∈ rest)))
        (p :: visited) := by
  rw [tileFillLoop]
  simp [hv, hb, hc]

theorem tileFillLoop_oob (hv : p ∉ visited) (hb : ¬ inB w h p = true) :
    tileFillLoop w h fc tc pix e (p :: rest) visited = ⟨pix, e, rest, true⟩ := by
  rw [tileFillLoop]
  simp [hv, hb]

theorem fillLoop_nil :
    fillLoop w h start colr pix [] visited = some pix := by
  rw [fillLoop]

theorem fillLoop_visited (hv : p ∈ visited) :
    fillLoop w h start colr pix (p :: rest) visited =
      fillLoop w h start colr pix rest visited := by
  rw [fillLoop]
  simp [hv]

theorem fillLoop_skip (hv : p ∉ visited) (hb : inB w h p = true)
    (hc : pix p ≠ start) :
    fillLoop w h start colr pix (p :: rest) visited =
      fillLoop w h start colr pix rest (p :: visited) := by
  rw [fillLoop]
  simp [hv, hb, hc]

theorem fillLoop_write (hv : p ∉ visited) (hb : inB w h p = true)
    (hc : pix p = start) :
    fillLoop w h start colr pix (p :: rest) visited =
      fillLoop w h start colr (setPix pix p colr)
        (rest ++ (neighbors w h p).filter
          (fun q => !decide (q ∈ p :: visited) && !decide (q ∈ rest)))
        (p :: visited) := by
  rw [fillLoop]
  simp [hv, hb, hc]

theorem fillLoop_oob (hv : p ∉ visited) (hb : ¬ inB w h p = true) :
    fillLoop w h start colr pix (p :: rest) visited = none := by
  rw [fillLoop]
  simp [hv, hb]

end LoopEquations

/-- A run of the tile loop that does not fault ends with an empty
frontier: the caller's aliased seed set is drained. -/
theorem tileFillLoop_ok_frontier (w h : Int) (fc tc : Color) :
    ∀ (pix : Pix) (e : Edges) (frontier visited : List Pos),
      (tileFillLoop w h fc tc pix e frontier visited).fault = false →
      (tileFillLoop w h fc tc pix e frontier visited).frontier = [] := by
  intro pix e frontier visited
  induction pix, e, frontier, visited using tileFillLoop.induct w h fc tc with
  | case1 pix e visited =>
    intro _
    rw [tileFillLoop_nil]
  | case2 pix e p rest visited hv ih =>
    rw [tileFillLoop_visited hv]
    exact ih
  | case3 pix e p rest visited hv hb hc ih =>
    rw [tileFillLoop_skip hv hb hc]
    exact ih
  | case4 pix e p rest visited hv hb hc ih =>
    rw [tileFillLoop_write hv hb (not_not.mp hc)]
    exact ih
  | case5 pix e p rest visited hv hb =>
    rw [tileFillLoop_oob hv hb]
    intro hfault
    cases hfault

theorem mem_edgeAdd {q p : Pos} {l : List Pos} :
    q ∈ edgeAdd p l ↔ q = p ∨ q ∈ l := by
  unfold edgeAdd
  split_ifs with hp
  · constructor
    · exact Or.inr
    · rintro (rfl | hq)
      · exact hp
      · exact hq
  · exact List.mem_cons

/-- Shape of the four edge sets: every reported `left` position lies on
the left border, and so on. -/
def EdgeOK (w h : Int) (e : Edges) : Prop :=
  (∀ p ∈ e.left, p.1 = 0) ∧ (∀ p ∈ e.top, p.2 = 0) ∧
  (∀ p ∈ e.right, p.1 = w - 1) ∧ (∀ p ∈ e.bottom, p.2 = h - 1)

theorem edgeOK_classify {w h : Int} {p : Pos} {e : Edges}
    (hE : EdgeOK w h e) : EdgeOK w h (classify w h p e) := by
  obtain ⟨hl, ht, hr, hb⟩ := hE
  unfold classify
  split_ifs with h1 h2 h3 h4 <;>
    refine ⟨?_, ?_, ?_, ?_⟩ <;> intro q hq <;>
    first
    | (rw [mem_edgeAdd] at hq
       rcases hq with rfl | hq
       · assumption
       · first | exact hl q hq | exact ht q hq | exact hr q hq | exact hb q hq)
    | exact hl q hq | exact ht q hq | exact hr q hq | exact hb q hq

theorem tileFillLoop_edgeOK (w h : Int) (fc tc : Color) :
    ∀ (pix : Pix) (e : Edges) (frontier visited : List Pos),
      EdgeOK w h e →
      EdgeOK w h (tileFillLoop w h fc tc pix e frontier visited).edges := by
  intro pix e frontier visited
  induction pix, e, frontier, visited using tileFillLoop.induct w h fc tc with
  | case1 pix e visited =>
    intro hE
    rw [tileFillLoop_nil]
    exact hE
  | case2 pix e p rest visited hv ih =>
    rw [tileFillLoop_visited hv]
    exact ih
  | case3 pix e p rest visited hv hb hc ih =>
    rw [tileFillLoop_skip hv hb hc]
    exact ih
  | case4 pix e p rest visited hv hb hc ih =>
    rw [tileFillLoop_write hv hb (not_not.mp hc)]
    intro hE
    exact ih (edgeOK_classify hE)
  | case5 pix e p rest visited hv hb =>
    rw [tileFillLoop_oob hv hb]
    exact id

/-- When `from_color == to_color`, every write stores the value the pixel
already holds: the surface is unchanged pointwise. -/
theorem tileFillLoop_pix_of_from_eq_to (w h : Int) (fc tc : Color)
    (hft : fc = tc) (pix0 : Pix) :
    ∀ (pix : Pix) (e : Edges) (frontier visited : List Pos),
      (∀ q, pix q = pix0 q) →
      ∀ q, (tileFillLoop w h fc tc pix e frontier visited).pix q = pix0 q := by
  intro pix e frontier visited
  induction pix, e, frontier, visited using tileFillLoop.induct w h fc tc with
  | case1 pix e visited =>
    intro hpx q
    rw [tileFillLoop_nil]
    exact hpx q
  | case2 pix e p rest visited hv ih =>
    rw [tileFillLoop_visited hv]
    exact ih
  | case3 pix e p rest visited hv hb hc ih =>
    rw [tileFillLoop_skip hv hb hc]
    exact ih
  | case4 pix e p rest visited hv hb hc ih =>
    rw [tileFillLoop_write hv hb (not_not.mp hc)]
    intro hpx
    refine ih ?_
    intro q
    unfold setPix
    split_ifs with hq
    · subst hq
      rw [← hft, ← not_not.mp hc]
      exact hpx q
    · exact hpx q
  | case5 pix e p rest visited hv hb =>
    rw [tileFillLoop_oob hv hb]
    exact fun hpx q => hpx q

/-- A pending fill unit `(tile coordinate, seed positions, from_color,
to_color)` as carried by the sequential driver's work queue. -/
abbrev FillUnit : Type := Tile × List Pos × Color × Color

/-- Edge-to-neighbor translation, `fill.py` lines 153-164 (`world_fill`)
and 242-253 (`Worker.run`), which duplicate the same four guarded
translations in the order left, top, right, bottom. -/
def propagate (fw fh w h : Int) (fx fy : Int) (e : Edges) (fc tc : Color) :
    List FillUnit :=
  (if e.left ≠ [] ∧ 0 < fx then
    [((fx - 1, fy), e.left.map (fun p => (w - 1, p.2)), fc, tc)] else [])
  ++ (if e.top ≠ [] ∧ 0 < fy then
    [((fx, fy - 1), e.top.map (fun p => (p.1, h - 1)), fc, tc)] else [])
  ++ (if e.right ≠ [] ∧ fx + 1 < fw then
    [((fx + 1, fy), e.right.map (fun p => ((0 : Int), p.2)), fc, tc)] else [])
  ++ (if e.bottom ≠ [] ∧ fy + 1 < fh then
    [((fx, fy + 1), e.bottom.map (fun p => (p.1, (0 : Int))), fc, tc)] else [])

/-- Association-list lookup (Python `dict` access / `dict.get`). -/
def lookupA {α β : Type} [DecidableEq α] : List (α × β) → α → Option β
  | [], _ => none
  | (a, b) :: r, k => if a = k then some b else lookupA r k

/-- Association-list store (`d[k] = v`): replace in place, else append. -/
def insertA {α β : Type} [DecidableEq α] : List (α × β) → α → β → List (α × β)
  | [], k, v => [(k, v)]
  | (a, b) :: r, k, v => if a = k then (a, v) :: r else (a, b) :: insertA r k v

/-- Association-list removal (`d.pop(k)` on the key). -/
def eraseA {α β : Type} [DecidableEq α] : List (α × β) → α → List (α × β)
  | [], _ => []
  | (a, b) :: r, k => if a = k then r else (a, b) :: eraseA r k

/-- One iteration of the `world_fill` loop body, `fill.py` lines 148-165:
pop a unit, fetch the tile surface from the `img_map` cache or open it
from the world, run `tile_fill`, translate the edges (with the hard-coded
geometry `fw, fh = (10, 10)`, `w, h = (160, 144)`), and store the surface
back in the cache.  Returns the follow-up units and the updated cache,
`none` on a pixel-access fault. -/
def worldStep (world : Tile → Pix) (u : FillUnit) (imgMap : List (Tile × Pix)) :
    Option (List FillUnit × List (Tile × Pix)) :=
  if (tileFill 160 144 u.2.2.1 u.2.2.2
      ((lookupA imgMap u.1).getD (world u.1)) u.2.1).fault then none
  else some
    (propagate 10 10 160 144 u.1.1 u.1.2
      (tileFill 160 144 u.2.2.1 u.2.2.2
        ((lookupA imgMap u.1).getD (world u.1)) u.2.1).edges u.2.2.1 u.2.2.2,
    insertA imgMap u.1
      (tileFill 160 144 u.2.2.1 u.2.2.2
        ((lookupA imgMap u.1).getD (world u.1)) u.2.1).pix)

/-- The `world_fill` work loop, `fill.py` lines 147-165: a LIFO stack of
fill units (Python appends and pops at the list's end; here the list head
is the top of the stack, so freshly produced units are pushed reversed).
The extra `Nat` result counts the follow-up units appended by edge
propagation; `none` reports either fuel exhaustion (the source loop can
run forever) or a pixel-access fault. -/
def worldFillGo (world : Tile → Pix) :
    Nat → List FillUnit → List (Tile × Pix) → Nat →
      Option (List (Tile × Pix) × Nat)
  | 0, _, _, _ => none
  | _ + 1, [], imgMap, cnt => some (imgMap, cnt)
  | fuel + 1, u :: restQ, imgMap, cnt =>
    (worldStep world u imgMap).bind fun r =>
      worldFillGo world fuel (r.1.reverse ++ restQ) r.2 (cnt + r.1.length)

/-- `world_fill(path, fills)`, `fill.py` lines 139-168: seeds the queue
with one unit per requested fill, deriving `from_color` by reading the
world surface at the seed (`get_pixel_color`), then drains the stack. -/
def worldFill (fuel : Nat) (world : Tile → Pix)
    (fills : List (Tile × Pos × Color)) : Option (List (Tile × Pix) × Nat) :=
  worldFillGo world fuel
    ((fills.map (fun f => (f.1, [f.2.1], world f.1 f.2.1, f.2.2))).reverse) [] 0

theorem lookupA_eq_none {α β : Type} [DecidableEq α] {l : List (α × β)} {k : α} :
    lookupA l k = none ↔ k ∉ l.map Prod.fst := by
  induction l with
  | nil => simp [lookupA]
  | cons a r ih =>
    cases a with
    | mk a1 b1 =>
      by_cases hak : a1 = k
      · subst hak
        simp [lookupA]
      · have hka : ¬ k = a1 := fun he => hak he.symm
        simp [lookupA, hak, hka, ih]

theorem worldFillGo_zero {world : Tile → Pix} {q : List FillUnit}
    {m : List (Tile × Pix)} {c : Nat} : worldFillGo world 0 q m c = none := by
  rw [worldFillGo]

theorem worldFillGo_succ_nil {world : Tile → Pix} {fuel : Nat}
    {m : List (Tile × Pix)} {c : Nat} :
    worldFillGo world (fuel + 1) [] m c = some (m, c) := by
  rw [worldFillGo]

theorem worldFillGo_succ_cons {world : Tile → Pix} {fuel : Nat} {u : FillUnit}
    {q : List FillUnit} {m : List (Tile × Pix)} {c : Nat} :
    worldFillGo world (fuel + 1) (u :: q) m c =
      (worldStep world u m).bind fun r =>
        worldFillGo world fuel (r.1.reverse ++ q) r.2 (c + r.1.length) := by
  rw [worldFillGo]

/-- Uniform black and opaque red, concrete RGBA values from the repo's
fixture palette. -/
def blackC : Color := (0, 0, 0, 255)

def redC : Color := (255, 0, 0, 255)

/-- A concrete world: tile `(6, 9)` has a single red pixel at its top-left
corner and is otherwise black; all other tiles are uniformly black. -/
def exWorld : Tile → Pix :=
  fun t => if t = ((6 : Int), (9 : Int)) then
      (fun p => if p = ((0 : Int), (0 : Int)) then redC else blackC)
    else fun _ => blackC

/-- One fill request on `exWorld`: seed tile `(6, 9)` at `(0, 0)` with
red — the seed pixel is already red, so `from_color == to_color`. -/
def exFills : List (Tile × Pos × Color) :=
  [(((6 : Int), (9 : Int)), ((0 : Int), (0 : Int)), redC)]

theorem exWorld_seed_red :
    exWorld ((6 : Int), (9 : Int)) ((0 : Int), (0 : Int)) = redC := by
  simp [exWorld]

theorem exFills_initial_queue :
    ((exFills.map (fun f => (f.1, [f.2.1], exWorld f.1 f.2.1, f.2.2))).reverse)
      = [(((6 : Int), (9 : Int)), [((0 : Int), (0 : Int))], redC, redC)] := by
  simp [exFills, exWorld]

set_option maxRecDepth 2000 in
/-- First driver iteration on `exWorld`: the fill with
`from_color == to_color` changes no pixel value, but the seed pixel lies
on the tile's left border, so the driver pushes one follow-up unit for
tile `(5, 9)` with translated seed `(159, 0)`. -/
theorem worldStep_exWorld_first :
    (worldStep exWorld
      (((6 : Int), (9 : Int)), [((0 : Int), (0 : Int))], redC, redC) []).map
      Prod.fst
      = some [(((5 : Int), (9 : Int)), [((159 : Int), (0 : Int))], redC, redC)] := by
  simp [worldStep, lookupA, exWorld, tileFill, tileFillLoop, Edges.empty, inB,
    setPix, neighbors, neighborCands, classify, edgeAdd, propagate, redC, blackC]

set_option maxRecDepth 2000 in
theorem worldStep_exWorld_first_keys :
    (worldStep exWorld
      (((6 : Int), (9 : Int)), [((0 : Int), (0 : Int))], redC, redC) []).map
      (fun r => r.2.map Prod.fst) = some [((6 : Int), (9 : Int))] := by
  simp [worldStep, lookupA, exWorld, tileFill, tileFillLoop, Edges.empty, inB,
    setPix, neighbors, neighborCands, classify, edgeAdd, propagate, insertA,
    redC, blackC]

set_option maxRecDepth 2000 in
/-- Second driver iteration: the translated seed `(159, 0)` on the
all-black tile `(5, 9)` does not match `from_color` red, so no further
unit is produced. -/
theorem worldStep_exWorld_second (m2 : List (Tile × Pix))
    (hkey : m2.map Prod.fst = [((6 : Int), (9 : Int))]) :
    (worldStep exWorld
      (((5 : Int), (9 : Int)), [((159 : Int), (0 : Int))], redC, redC) m2).map
      Prod.fst = some [] := by
  have hlook : lookupA m2 ((5 : Int), (9 : Int)) = none := by
    rw [lookupA_eq_none, hkey]
    decide
  simp [worldStep, hlook, exWorld, tileFill, tileFillLoop, Edges.empty, inB,
    setPix, neighbors, neighborCands, classify, edgeAdd, propagate, redC, blackC]

theorem worldFillGo_exWorld_tail (m2 : List (Tile × Pix))
    (hkey : m2.map Prod.fst = [((6 : Int), (9 : Int))]) :
    (worldFillGo exWorld 4
      [(((5 : Int), (9 : Int)), [((159 : Int), (0 : Int))], redC, redC)] m2 1).map
      (fun r => r.2) = some 1 := by
  rw [worldFillGo_succ_cons]
  obtain ⟨r2, hr2⟩ : ∃ r2, worldStep exWorld
      (((5 : Int), (9 : Int)), [((159 : Int), (0 : Int))], redC, redC) m2
        = some r2 := by
    cases hE : worldStep exWorld
        (((5 : Int), (9 : Int)), [((159 : Int), (0 : Int))], redC, redC) m2 with
    | none =>
      have := worldStep_exWorld_second m2 hkey
      rw [hE] at this
      cases this
    | some r => exact ⟨r, rfl⟩
  have hr2f : r2.1 = [] := by
    have := worldStep_exWorld_second m2 hkey
    rw [hr2] at this
    simpa using this
  rw [hr2]
  simp only [Option.some_bind, hr2f, List.reverse_nil, List.nil_append,
    List.length_nil, Nat.add_zero]
  rw [worldFillGo_succ_nil]
  rfl

set_option maxRecDepth 2000 in
/-- C1.  The spec claims that when the surface color at the seed equals
the requested fill color the driver submits zero follow-up units because
it compares the two colors before enqueuing; the source never performs
that comparison.  On `exWorld` (seed pixel already equal to the fill
color `redC`) the sequential driver `world_fill` completes having
submitted exactly one follow-up fill unit, not zero. -/
theorem c1_from_eq_to_still_submits_follow_up_unit :
    exWorld ((6 : Int), (9 : Int)) ((0 : Int), (0 : Int)) = redC ∧
    (worldFill 5 exWorld exFills).map (fun r => r.2) = some 1 := by
  refine ⟨exWorld_seed_red, ?_⟩
  rw [worldFill, exFills_initial_queue, worldFillGo_succ_cons]
  obtain ⟨r1, hr1⟩ : ∃ r1, worldStep exWorld
      (((6 : Int), (9 : Int)), [((0 : Int), (0 : Int))], redC, redC) []
        = some r1 := by
    cases hE : worldStep exWorld
        (((6 : Int), (9 : Int)), [((0 : Int), (0 : Int))], redC, redC) [] with
    | none =>
      have := worldStep_exWorld_first
      rw [hE] at this
      cases this
    | some r => exact ⟨r, rfl⟩
  have hr1f : r1.1
      = [(((5 : Int), (9 : Int)), [((159 : Int), (0 : Int))], redC, redC)] := by
    have := worldStep_exWorld_first
    rw [hr1] at this
    simpa using this
  have hr1k : r1.2.map Prod.fst = [((6 : Int), (9 : Int))] := by
    have := worldStep_exWorld_first_keys
    rw [hr1] at this
    simpa using this
  rw [hr1]
  simp only [Option.some_bind, hr1f, List.reverse_cons, List.reverse_nil,
    List.nil_append, List.length_cons, List.length_nil, Nat.zero_add]
  exact worldFillGo_exWorld_tail r1.2 hr1k

theorem mem_if_singleton {c : Prop} [Decidable c] {u v : FillUnit} :
    v ∈ (if c then [u] else ([] : List FillUnit)) ↔ c ∧ v = u := by
  split_ifs with hc
  · simp [hc]
  · simp [hc]

theorem mem_propagate {fw fh w h fx fy : Int} {e : Edges} {fc tc : Color}
    {t : Tile} {s : List Pos} :
    ((t, s, fc, tc) : FillUnit) ∈ propagate fw fh w h fx fy e fc tc ↔
      ((t = (fx - 1, fy) ∧ 0 < fx ∧ e.left ≠ [] ∧
          s = e.left.map fun p => (w - 1, p.2)) ∨
       (t = (fx, fy - 1) ∧ 0 < fy ∧ e.top ≠ [] ∧
          s = e.top.map fun p => (p.1, h - 1)) ∨
       (t = (fx + 1, fy) ∧ fx + 1 < fw ∧ e.right ≠ [] ∧
          s = e.right.map fun p => ((0 : Int), p.2)) ∨
       (t = (fx, fy + 1) ∧ fy + 1 < fh ∧ e.bottom ≠ [] ∧
          s = e.bottom.map fun p => (p.1, (0 : Int)))) := by
  simp only [propagate, List.mem_append, mem_if_singleton, Prod.mk.injEq, and_true]
  constructor
  · rintro (((⟨⟨hne, hlt⟩, ht, hs⟩ | ⟨⟨hne, hlt⟩, ht, hs⟩) |
        ⟨⟨hne, hlt⟩, ht, hs⟩) | ⟨⟨hne, hlt⟩, ht, hs⟩)
    · exact Or.inl ⟨ht, hlt, hne, hs⟩
    · exact Or.inr (Or.inl ⟨ht, hlt, hne, hs⟩)
    · exact Or.inr (Or.inr (Or.inl ⟨ht, hlt, hne, hs⟩))
    · exact Or.inr (Or.inr (Or.inr ⟨ht, hlt, hne, hs⟩))
  · rintro (⟨ht, hlt, hne, hs⟩ | ⟨ht, hlt, hne, hs⟩ |
        ⟨ht, hlt, hne, hs⟩ | ⟨ht, hlt, hne, hs⟩)
    · exact Or.inl (Or.inl (Or.inl ⟨⟨hne, hlt⟩, ht, hs⟩))
    · exact Or.inl (Or.inl (Or.inr ⟨⟨hne, hlt⟩, ht, hs⟩))
    · exact Or.inl (Or.inr ⟨⟨hne, hlt⟩, ht, hs⟩)
    · exact Or.inr ⟨⟨hne, hlt⟩, ht, hs⟩

theorem propagate_in_grid {fw fh w h fx fy : Int} {e : Edges} {fc tc : Color}
    (hfx1 : 0 ≤ fx) (hfx2 : fx < fw) (hfy1 : 0 ≤ fy) (hfy2 : fy < fh) :
    ∀ u ∈ propagate fw fh w h fx fy e fc tc,
      0 ≤ u.1.1 ∧ u.1.1 < fw ∧ 0 ≤ u.1.2 ∧ u.1.2 < fh := by
  intro u hu
  simp only [propagate, List.mem_append, mem_if_singleton] at hu
  rcases hu with (((⟨⟨_, hg⟩, rfl⟩ | ⟨⟨_, hg⟩, rfl⟩) | ⟨⟨_, hg⟩, rfl⟩) | ⟨⟨_, hg⟩, rfl⟩) <;>
    refine ⟨?_, ?_, ?_, ?_⟩ <;> simp <;> omega

/-- C6.  Edge-to-neighbor translation: for edges returned by `tile_fill`,
left-edge pixels `(0, y)` are forwarded as `(w-1, y)` to `(fx-1, fy)` iff
`fx > 0`, top-edge pixels `(x, 0)` as `(x, h-1)` to `(fx, fy-1)` iff
`fy > 0`, right-edge pixels `(w-1, y)` as `(0, y)` to `(fx+1, fy)` iff
`fx+1 < fw`, bottom-edge pixels `(x, h-1)` as `(x, 0)` to `(fx, fy+1)`
iff `fy+1 < fh`; nothing else is submitted, and every submitted unit's
tile lies inside the grid (boundary edges are dropped). -/
theorem c6_edge_to_neighbor_translation (fw fh w h fx fy : Int)
    (fc tc : Color) (pix : Pix) (seeds : List Pos) (e : Edges)
    (he : e = (tileFill w h fc tc pix seeds).edges)
    (hfx1 : 0 ≤ fx) (hfx2 : fx < fw) (hfy1 : 0 ≤ fy) (hfy2 : fy < fh) :
    (∀ p ∈ e.left, p.1 = 0) ∧ (∀ p ∈ e.top, p.2 = 0) ∧
    (∀ p ∈ e.right, p.1 = w - 1) ∧ (∀ p ∈ e.bottom, p.2 = h - 1) ∧
    (∀ (t : Tile) (s : List Pos),
      ((t, s, fc, tc) : FillUnit) ∈ propagate fw fh w h fx fy e fc tc ↔
      ((t = (fx - 1, fy) ∧ 0 < fx ∧ e.left ≠ [] ∧
          s = e.left.map fun p => (w - 1, p.2)) ∨
       (t = (fx, fy - 1) ∧ 0 < fy ∧ e.top ≠ [] ∧
          s = e.top.map fun p => (p.1, h - 1)) ∨
       (t = (fx + 1, fy) ∧ fx + 1 < fw ∧ e.right ≠ [] ∧
          s = e.right.map fun p => ((0 : Int), p.2)) ∨
       (t = (fx, fy + 1) ∧ fy + 1 < fh ∧ e.bottom ≠ [] ∧
          s = e.bottom.map fun p => (p.1, (0 : Int))))) ∧
    (∀ u ∈ propagate fw fh w h fx fy e fc tc,
      0 ≤ u.1.1 ∧ u.1.1 < fw ∧ 0 ≤ u.1.2 ∧ u.1.2 < fh) := by
  subst he
  have hE := tileFillLoop_edgeOK w h fc tc pix Edges.empty seeds []
    ⟨by simp [Edges.empty], by simp [Edges.empty], by simp [Edges.empty],
     by simp [Edges.empty]⟩
  exact ⟨hE.1, hE.2.1, hE.2.2.1, hE.2.2.2,
    fun t s => mem_propagate,
    propagate_in_grid hfx1 hfx2 hfy1 hfy2⟩

/-- Witness for C6 at a concrete input: tile `(0, 0)` of a `1 × 1` grid,
empty seed set, asking about a left-neighbor unit (which the world
boundary must drop). -/
theorem c6_witness :
    ((((0 : Int) - 1, (0 : Int)), ([] : List Pos), blackC, redC) : FillUnit) ∈
        propagate 1 1 2 2 0 0
          (tileFill 2 2 blackC redC (fun _ => blackC) []).edges blackC redC ↔
      ((((0 : Int) - 1, (0 : Int)) = ((0 : Int) - 1, (0 : Int)) ∧ (0 : Int) < 0 ∧
          (tileFill 2 2 blackC redC (fun _ => blackC) []).edges.left ≠ [] ∧
          ([] : List Pos) = (tileFill 2 2 blackC redC
            (fun _ => blackC) []).edges.left.map (fun p => ((2 : Int) - 1, p.2))) ∨
       (((0 : Int) - 1, (0 : Int)) = ((0 : Int), (0 : Int) - 1) ∧ (0 : Int) < 0 ∧
          (tileFill 2 2 blackC redC (fun _ => blackC) []).edges.top ≠ [] ∧
          ([] : List Pos) = (tileFill 2 2 blackC redC
            (fun _ => blackC) []).edges.top.map (fun p => (p.1, (2 : Int) - 1))) ∨
       (((0 : Int) - 1, (0 : Int)) = ((0 : Int) + 1, (0 : Int)) ∧ (0 : Int) + 1 < 1 ∧
          (tileFill 2 2 blackC redC (fun _ => blackC) []).edges.right ≠ [] ∧
          ([] : List Pos) = (tileFill 2 2 blackC redC
            (fun _ => blackC) []).edges.right.map (fun p => ((0 : Int), p.2))) ∨
       (((0 : Int) - 1, (0 : Int)) = ((0 : Int), (0 : Int) + 1) ∧ (0 : Int) + 1 < 1 ∧
          (tileFill 2 2 blackC redC (fun _ => blackC) []).edges.bottom ≠ [] ∧
          ([] : List Pos) = (tileFill 2 2 blackC redC
            (fun _ => blackC) []).edges.bottom.map (fun p => (p.1, (0 : Int))))) :=
  (c6_edge_to_neighbor_translation 1 1 2 2 0 0 blackC redC (fun _ => blackC) []
    (tileFill 2 2 blackC redC (fun _ => blackC) []).edges rfl
    (by decide) (by decide) (by decide) (by decide)).2.2.2.2.1
    ((0 : Int) - 1, (0 : Int)) ([] : List Pos)

/-- All-black tile surface. -/
def uniformBlack : Pix := fun _ => blackC

/-- C7 counterexample: seeds `{(0,0), (5,5)}` on a black `2 × 2` tile,
fill black to red.  The in-bounds seed `(0,0)` is popped first and its
pixel is rewritten; only then is the out-of-bounds seed `(5,5)` popped
and the `IndexError` raised — so the surface is already mutated when the
fault is reported, contradicting "the surface is unchanged when the
InvalidGeometry fault is reported". -/
theorem c7_counterexample_mutation_before_fault :
    (tileFill 2 2 blackC redC uniformBlack
      [((0 : Int), (0 : Int)), ((5 : Int), (5 : Int))]).fault = true ∧
    (tileFill 2 2 blackC redC uniformBlack
      [((0 : Int), (0 : Int)), ((5 : Int), (5 : Int))]).pix ((0 : Int), (0 : Int))
      ≠ uniformBlack ((0 : Int), (0 : Int)) := by
  constructor
  · simp [tileFill, tileFillLoop, Edges.empty, inB, setPix, neighbors,
      neighborCands, classify, edgeAdd, uniformBlack, blackC, redC]
  · simp [tileFill, tileFillLoop, Edges.empty, inB, setPix, neighbors,
      neighborCands, classify, edgeAdd, uniformBlack, blackC, redC]

/-- C7 as amended: `tile_fill` does fault on an out-of-bounds seed, and
when the out-of-bounds seed is the first one popped the surface is still
unchanged and no edges have been reported; seeds processed earlier may
already have mutated the surface. -/
theorem c7_amended_fault_on_oob_seed (w h : Int) (fc tc : Color) (pix : Pix)
    (p : Pos) (rest : List Pos) (hb : ¬ inB w h p = true) :
    tileFill w h fc tc pix (p :: rest) = ⟨pix, Edges.empty, rest, true⟩ := by
  unfold tileFill
  rw [tileFillLoop_oob (List.not_mem_nil p) hb]

theorem c7_amended_witness :
    tileFill 2 2 blackC redC uniformBlack [((5 : Int), (5 : Int))]
      = ⟨uniformBlack, Edges.empty, [], true⟩ :=
  c7_amended_fault_on_oob_seed 2 2 blackC redC uniformBlack
    ((5 : Int), (5 : Int)) [] (by decide)

/-- A `2 × 2` tile that is black exactly at its bottom-right corner. -/
def cornerPix : Pix := fun p => if p = ((1 : Int), (1 : Int)) then blackC else redC

/-- C9.  The frontier of `tile_fill` aliases the caller's seed set
(`frontier = tile_positions` in the source, with no copy): on every
non-faulting return the frontier — and hence the caller's set — has been
drained empty, so callers cannot rely on their seed set surviving the
call; concretely, a nonempty seed set comes back empty. -/
theorem c9_tile_fill_consumes_callers_seed_set :
    (∀ (w h : Int) (fc tc : Color) (pix : Pix) (seeds : List Pos),
      (tileFill w h fc tc pix seeds).fault = false →
      (tileFill w h fc tc pix seeds).frontier = []) ∧
    ((tileFill 2 2 blackC redC cornerPix [((1 : Int), (1 : Int))]).frontier = []
      ∧ ([((1 : Int), (1 : Int))] : List Pos) ≠ []) := by
  refine ⟨fun w h fc tc pix seeds =>
    tileFillLoop_ok_frontier w h fc tc pix Edges.empty seeds [], ?_, by simp⟩
  simp [tileFill, tileFillLoop, Edges.empty, inB, setPix, neighbors,
    neighborCands, classify, edgeAdd, cornerPix, blackC, redC]

theorem c9_witness :
    (tileFill 2 2 blackC redC cornerPix [((1 : Int), (1 : Int))]).frontier = [] :=
  c9_tile_fill_consumes_callers_seed_set.1 2 2 blackC redC cornerPix
    [((1 : Int), (1 : Int))]
    (by simp [tileFill, tileFillLoop, Edges.empty, inB, setPix, neighbors,
      neighborCands, classify, edgeAdd, cornerPix, blackC, redC])

section AssocLemmas

variable {α β : Type} [DecidableEq α]

theorem lookupA_insertA_self {l : List (α × β)} {k : α} {v : β} :
    lookupA (insertA l k v) k = some v := by
  induction l with
  | nil => simp [insertA, lookupA]
  | cons a r ih =>
    cases a with
    | mk a1 b1 =>
      by_cases hak : a1 = k
      · simp [insertA, lookupA, hak]
      · simp [insertA, lookupA, hak, ih]

theorem lookupA_insertA_ne {l : List (α × β)} {k k' : α} {v : β}
    (hne : k ≠ k') : lookupA (insertA l k v) k' = lookupA l k' := by
  induction l with
  | nil => simp [insertA, lookupA, hne]
  | cons a r ih =>
    cases a with
    | mk a1 b1 =>
      by_cases hak : a1 = k
      · subst hak
        simp [insertA, lookupA, hne]
      · simp [insertA, lookupA, hak, ih]

theorem lookupA_eraseA_ne {l : List (α × β)} {k k' : α}
    (hne : k ≠ k') : lookupA (eraseA l k) k' = lookupA l k' := by
  induction l with
  | nil => simp [eraseA]
  | cons a r ih =>
    cases a with
    | mk a1 b1 =>
      by_cases hak : a1 = k
      · subst hak
        simp [eraseA, lookupA, fun h : a1 = k' => hne h]
      · simp [eraseA, lookupA, hak, ih]

theorem insertA_length_none {l : List (α × β)} {k : α} {v : β}
    (h : lookupA l k = none) : (insertA l k v).length = l.length + 1 := by
  induction l with
  | nil => simp [insertA]
  | cons a r ih =>
    cases a with
    | mk a1 b1 =>
      by_cases hak : a1 = k
      · simp [lookupA, hak] at h
      · simp [lookupA, hak] at h
        simp [insertA, hak, ih h]

theorem insertA_length_some {l : List (α × β)} {k : α} {v w : β}
    (h : lookupA l k = some w) : (insertA l k v).length = l.length := by
  induction l with
  | nil => simp [lookupA] at h
  | cons a r ih =>
    cases a with
    | mk a1 b1 =>
      by_cases hak : a1 = k
      · simp [insertA, hak]
      · simp [lookupA, hak] at h
        simp [insertA, hak, ih h]

theorem insertA_keys_none {l : List (α × β)} {k : α} {v : β}
    (h : lookupA l k = none) :
    (insertA l k v).map Prod.fst = l.map Prod.fst ++ [k] := by
  induction l with
  | nil => simp [insertA]
  | cons a r ih =>
    cases a with
    | mk a1 b1 =>
      by_cases hak : a1 = k
      · simp [lookupA, hak] at h
      · simp [lookupA, hak] at h
        simp [insertA, hak, ih h]

theorem insertA_keys_some {l : List (α × β)} {k : α} {v w : β}
    (h : lookupA l k = some w) :
    (insertA l k v).map Prod.fst = l.map Prod.fst := by
  induction l with
  | nil => simp [lookupA] at h
  | cons a r ih =>
    cases a with
    | mk a1 b1 =>
      by_cases hak : a1 = k
      · simp [insertA, hak]
      · simp [lookupA, hak] at h
        simp [insertA, hak, ih h]

theorem eraseA_length_some {l : List (α × β)} {k : α} {w : β}
    (h : lookupA l k = some w) : (eraseA l k).length + 1 = l.length := by
  induction l with
  | nil => simp [lookupA] at h
  | cons a r ih =>
    cases a with
    | mk a1 b1 =>
      by_cases hak : a1 = k
      · simp [eraseA, hak]
      · simp [lookupA, hak] at h
        simp [eraseA, hak, ih h]

theorem eraseA_keys_sublist {l : List (α × β)} {k : α} :
    ((eraseA l k).map Prod.fst).Sublist (l.map Prod.fst) := by
  induction l with
  | nil => simp [eraseA]
  | cons a r ih =>
    cases a with
    | mk a1 b1 =>
      by_cases hak : a1 = k
      · simp [eraseA, hak]
      · simpa [eraseA, hak] using ih.cons₂ a1

end AssocLemmas

/-- Pending work for one tile, keyed by `(from_color, to_color)`:
the source's `self.data[path]` dict from color pair to seed set. -/
abbrev Payload : Type := List ((Color × Color) × Finset Pos)

/-- The `WorkItems` engine state (`fill.py` lines 171-221): `data` maps
tile coordinates to pending payloads, `processing` is the in-flight set
(modeled as a list so the no-duplicate guarantee can be stated), and
`unfinished_tasks` is the outstanding counter.  Every method body runs
under the single lock `self.mu`, so a concurrent execution is an
interleaving of these atomic transitions. -/
structure WI where
  data : List (Tile × Payload)
  processing : List Tile
  unfinished_tasks : Int

/-- `WorkItems()` — empty pending map, nothing in flight, counter zero. -/
def WI.init : WI := ⟨[], [], 0⟩

/-- `WorkItems.put(path, work)`, `fill.py` lines 182-194: a net-new tile
increments the counter and installs a fresh pair-map; otherwise the seed
set is unioned into the existing entry for the `(from, to)` pair. -/
def putW (st : WI) (t : Tile) (seeds : Finset Pos) (fc tc : Color) : WI :=
  match lookupA st.data t with
  | none =>
    { st with
      data := insertA st.data t [((fc, tc), seeds)]
      unfinished_tasks := st.unfinished_tasks + 1 }
  | some w =>
    { st with
      data := insertA st.data t (insertA w (fc, tc) (((lookupA w (fc, tc)).getD ∅) ∪ seeds)) }

/-- `WorkItems.get()`, `fill.py` lines 196-206, parametrized by the
claimable tile that the arbitrary `set.pop` chooses: `none` when that
tile is not pending or already in flight (the call would keep blocking
or pick another tile); otherwise the whole payload is removed from
`data` and the tile is marked in flight, atomically under the lock. -/
def getW (st : WI) (t : Tile) : Option (Payload × WI) :=
  match lookupA st.data t with
  | none => none
  | some w =>
    if t ∈ st.processing then none
    else some (w, { st with
      data := eraseA st.data t
      processing := t :: st.processing })

inductive WFault
  | notInFlight
  | accounting
deriving DecidableEq

/-- `WorkItems.task_done(f)`, `fill.py` lines 208-216:
`self.processing.remove(f)` raises `KeyError` when `f` is not in flight,
before the counter is read or written; otherwise the code computes
`unfinished - 1` and raises `ValueError` instead of storing it when the
result would be negative (the `processing` removal has already happened
by then, which the returned state reflects). -/
def taskDone (st : WI) (f : Tile) : WI × Option WFault :=
  if f ∈ st.processing then
    if st.unfinished_tasks - 1 < 0 then
      ({ st with processing := st.processing.erase f }, some WFault.accounting)
    else
      ({ st with
        processing := st.processing.erase f
        unfinished_tasks := st.unfinished_tasks - 1 }, none)
  else (st, some WFault.notInFlight)

/-- `WorkItems.join()`, `fill.py` lines 218-221: the wait loop exits
exactly when `unfinished_tasks` is zero. -/
def joinUnblocked (st : WI) : Prop := st.unfinished_tasks = 0

/-- One engine call, as issued by drivers and workers. -/
inductive EngineOp
  | put (t : Tile) (fc tc : Color) (seeds : Finset Pos)
  | get (t : Tile)
  | done (t : Tile)

def tileOf : EngineOp → Tile
  | .put t _ _ _ => t
  | .get t => t
  | .done t => t

/-- One atomic engine transition over the state extended with two ghost
counters (net-new `put` increments, successful `task_done` calls):
`none` when the op is disabled — a `get` whose chosen tile is not
claimable blocks, a `task_done` that raises ends the run. -/
def stepC : WI × Nat × Nat → EngineOp → Option (WI × Nat × Nat)
  | (st, n, d), .put t fc tc seeds =>
    some (putW st t seeds fc tc,
      ((lookupA st.data t).elim (n + 1) (fun _ => n)), d)
  | (st, n, d), .get t => (getW st t).map (fun r => (r.2, n, d))
  | (st, n, d), .done t =>
    match taskDone st t with
    | (st2, none) => some (st2, n, d + 1)
    | (_, some _) => none

/-- An interleaving of engine calls, run to completion. -/
def runC : WI × Nat × Nat → List EngineOp → Option (WI × Nat × Nat)
  | s, [] => some s
  | s, op :: ops =>
    match stepC s op with
    | some s2 => runC s2 ops
    | none => none

theorem getW_eq_some {st : WI} {t : Tile} {w : Payload} {st2 : WI} :
    getW st t = some (w, st2) ↔
      lookupA st.data t = some w ∧ t ∉ st.processing ∧
      st2 = { st with
        data := eraseA st.data t
        processing := t :: st.processing } := by
  unfold getW
  cases hl : lookupA st.data t with
  | none => simp
  | some w' =>
    by_cases hp : t ∈ st.processing
    · simp [hp]
    · simp only [hp, if_false, Option.some.injEq, Prod.mk.injEq,
        not_false_eq_true, true_and]
      constructor
      · rintro ⟨rfl, rfl⟩
        exact ⟨rfl, rfl⟩
      · rintro ⟨hw, hst⟩
        exact ⟨hw.symm ▸ rfl, hst.symm⟩

theorem getW_none_of_processing {st : WI} {t : Tile}
    (hp : t ∈ st.processing) : getW st t = none := by
  unfold getW
  cases lookupA st.data t with
  | none => rfl
  | some w => simp [hp]

/-- Engine invariant: the outstanding counter equals both the ghost
difference (net-new `put`s minus completed `task_done`s) and the number
of pending tiles plus in-flight tiles; keys and in-flight entries stay
duplicate-free. -/
def WInv (st : WI) (n d : Nat) : Prop :=
  st.unfinished_tasks = (n : Int) - (d : Int) ∧
  st.unfinished_tasks = (st.data.length : Int) + (st.processing.length : Int) ∧
  (st.data.map Prod.fst).Nodup ∧ st.processing.Nodup

theorem WInv_init : WInv WI.init 0 0 := by
  simp [WInv, WI.init]

theorem stepC_inv {st st' : WI} {n d n' d' : Nat} {op : EngineOp}
    (h : stepC (st, n, d) op = some (st', n', d')) (hI : WInv st n d) :
    WInv st' n' d' := by
  obtain ⟨h1, h2, h3, h4⟩ := hI
  cases op with
  | put t fc tc seeds =>
    simp only [stepC, Option.some.injEq, Prod.mk.injEq] at h
    obtain ⟨rfl, rfl, rfl⟩ := h
    unfold WInv
    cases hl : lookupA st.data t with
    | none =>
      have hk : t ∉ st.data.map Prod.fst := lookupA_eq_none.mp hl
      have hlen := insertA_length_none (v := [((fc, tc), seeds)]) hl
      have hkeys := insertA_keys_none (v := [((fc, tc), seeds)]) hl
      simp only [putW, hl, Option.elim]
      rw [hlen, hkeys]
      refine ⟨?_, ?_, ?_, h4⟩
      · push_cast
        omega
      · push_cast
        omega
      · rw [List.nodup_append]
        refine ⟨h3, List.nodup_singleton t, ?_⟩
        intro a ha hae
        simp only [List.mem_singleton] at hae
        exact hk (hae ▸ ha)
    | some w =>
      have hlen := insertA_length_some (v := insertA w (fc, tc)
        (((lookupA w (fc, tc)).getD ∅) ∪ seeds)) hl
      have hkeys := insertA_keys_some (v := insertA w (fc, tc)
        (((lookupA w (fc, tc)).getD ∅) ∪ seeds)) hl
      simp only [putW, hl, Option.elim]
      rw [hlen, hkeys]
      exact ⟨h1, h2, h3, h4⟩
  | get t =>
    simp only [stepC] at h
    cases hg : getW st t with
    | none =>
      rw [hg] at h
      cases h
    | some r =>
      rw [hg] at h
      simp only [Option.map_some', Option.some.injEq, Prod.mk.injEq] at h
      obtain ⟨hst, rfl, rfl⟩ := h
      obtain ⟨w, st2⟩ := r
      obtain ⟨hl, hp, rfl⟩ := getW_eq_some.mp hg
      subst hst
      have hle := eraseA_length_some hl
      unfold WInv
      refine ⟨h1, ?_, ?_, ?_⟩
      · simp only [List.length_cons]
        push_cast
        omega
      · exact (eraseA_keys_sublist).nodup h3
      · simp [List.nodup_cons, hp, h4]
  | done t =>
    simp only [stepC] at h
    unfold taskDone at h
    by_cases hp : t ∈ st.processing
    · rw [if_pos hp] at h
      by_cases hneg : st.unfinished_tasks - 1 < 0
      · rw [if_pos hneg] at h
        cases h
      · rw [if_neg hneg] at h
        simp only [Option.some.injEq, Prod.mk.injEq] at h
        obtain ⟨rfl, rfl, rfl⟩ := h
        have hle := List.length_erase_of_mem hp
        have hpos : 0 < st.processing.length := List.length_pos_of_mem hp
        unfold WInv
        refine ⟨?_, ?_, h3, h4.erase t⟩
        · push_cast
          omega
        · rw [hle]
          push_cast
          omega
    · rw [if_neg hp] at h
      cases h

theorem runC_inv : ∀ {ops : List EngineOp} {st st' : WI} {n d n' d' : Nat},
    runC (st, n, d) ops = some (st', n', d') → WInv st n d → WInv st' n' d' := by
  intro ops
  induction ops with
  | nil =>
    intro st st' n d n' d' h hI
    simp only [runC, Option.some.injEq, Prod.mk.injEq] at h
    obtain ⟨rfl, rfl, rfl⟩ := h
    exact hI
  | cons op ops ih =>
    intro st st' n d n' d' h hI
    unfold runC at h
    cases hs : stepC (st, n, d) op with
    | none =>
      rw [hs] at h
      cases h
    | some s2 =>
      rw [hs] at h
      obtain ⟨st2, n2, d2⟩ := s2
      exact ih h (stepC_inv hs hI)

/-- C2.  For every interleaving of engine calls from a fresh engine,
`join`/`wait_until_drained` unblocks (counter zero) iff every net-new
submission has a matching completed `task_done` and no pending tiles and
no in-flight tiles remain; in particular it never unblocks on transient
emptiness of the pending map while a claimed tile is still in flight. -/
theorem c2_join_unblocks_iff_drained (ops : List EngineOp) (st : WI)
    (n d : Nat) (h : runC (WI.init, 0, 0) ops = some (st, n, d)) :
    (joinUnblocked st ↔ (n = d ∧ st.data = [] ∧ st.processing = [])) ∧
    (st.processing ≠ [] → ¬ joinUnblocked st) := by
  obtain ⟨h1, h2, _, _⟩ := runC_inv h WInv_init
  unfold joinUnblocked
  constructor
  · constructor
    · intro h0
      rw [h0] at h1 h2
      have hd : st.data.length = 0 ∧ st.processing.length = 0 := by omega
      refine ⟨by omega, ?_, ?_⟩
      · exact List.length_eq_zero.mp hd.1
      · exact List.length_eq_zero.mp hd.2
    · rintro ⟨hnd, hdata, hproc⟩
      rw [hdata, hproc] at h2
      simpa using h2
  · intro hne h0
    rw [h0] at h2
    have hpos : 0 < st.processing.length := List.length_pos.mpr hne
    omega

theorem c2_witness :
    joinUnblocked (⟨[], [], 0⟩ : WI) ↔
      (1 = 1 ∧ ([] : List (Tile × Payload)) = [] ∧ ([] : List Tile) = []) :=
  (c2_join_unblocks_iff_drained
    [EngineOp.put ((0 : Int), (0 : Int)) blackC redC {((1 : Int), (1 : Int))},
     EngineOp.get ((0 : Int), (0 : Int)),
     EngineOp.done ((0 : Int), (0 : Int))]
    ⟨[], [], 0⟩ 1 1 rfl).1

/-- C3.  Under every interleaving from a fresh engine, the in-flight set
holds no duplicates, and a `get` that returns a tile returns one that is
not already in flight, pushing it so the in-flight set stays
duplicate-free: at most one worker holds a given tile between `get` and
the matching `task_done`. -/
theorem c3_no_tile_claimed_twice (ops : List EngineOp) (st : WI) (n d : Nat)
    (h : runC (WI.init, 0, 0) ops = some (st, n, d)) :
    st.processing.Nodup ∧
    ∀ (t : Tile) (w : Payload) (st2 : WI), getW st t = some (w, st2) →
      t ∉ st.processing ∧ st2.processing = t :: st.processing ∧
      st2.processing.Nodup := by
  obtain ⟨-, -, -, h4⟩ := runC_inv h WInv_init
  refine ⟨h4, fun t w st2 hg => ?_⟩
  obtain ⟨-, hp, rfl⟩ := getW_eq_some.mp hg
  exact ⟨hp, rfl, by simp [List.nodup_cons, hp, h4]⟩

theorem c3_witness :
    ([((0 : Int), (0 : Int))] : List Tile).Nodup :=
  ((c3_no_tile_claimed_twice
    [EngineOp.put ((0 : Int), (0 : Int)) blackC redC {((1 : Int), (1 : Int))}]
    ⟨[(((0 : Int), (0 : Int)), [((blackC, redC), {((1 : Int), (1 : Int))})])],
      [], 1⟩ 1 0 rfl).2 ((0 : Int), (0 : Int))
    [((blackC, redC), {((1 : Int), (1 : Int))})]
    ⟨[], [((0 : Int), (0 : Int))], 1⟩ rfl).2.2

/-- C5.  Whenever a `task_done` step would drive the outstanding counter
negative it raises a fault (`ValueError`, or `KeyError` when the tile was
never claimed) and the stored counter is not updated — it is never
silently clamped to zero. -/
theorem c5_task_done_underflow_raises (st : WI) (f : Tile)
    (hneg : st.unfinished_tasks - 1 < 0) :
    (taskDone st f).2.isSome = true ∧
    (taskDone st f).1.unfinished_tasks = st.unfinished_tasks := by
  unfold taskDone
  by_cases hp : f ∈ st.processing
  · simp [hp, hneg]
  · simp [hp]

theorem c5_witness :
    (taskDone (⟨[], [((0 : Int), (0 : Int))], 0⟩ : WI) ((0 : Int), (0 : Int))).2.isSome = true ∧
    (taskDone (⟨[], [((0 : Int), (0 : Int))], 0⟩ : WI) ((0 : Int), (0 : Int))).1.unfinished_tasks
      = (⟨[], [((0 : Int), (0 : Int))], 0⟩ : WI).unfinished_tasks :=
  c5_task_done_underflow_raises ⟨[], [((0 : Int), (0 : Int))], 0⟩
    ((0 : Int), (0 : Int)) (by decide)

/-- C10.  `task_done` on a tile that is not in flight raises the
`KeyError` from `processing.remove` before the counter is examined or
modified: the whole state, counter included, is returned unchanged. -/
theorem c10_task_done_unclaimed_tile_raises (st : WI) (f : Tile)
    (hp : f ∉ st.processing) :
    taskDone st f = (st, some WFault.notInFlight) := by
  unfold taskDone
  simp [hp]

theorem c10_witness :
    taskDone (⟨[], [], 5⟩ : WI) ((2 : Int), (3 : Int))
      = (⟨[], [], 5⟩, some WFault.notInFlight) :=
  c10_task_done_unclaimed_tile_raises ⟨[], [], 5⟩ ((2 : Int), (3 : Int))
    (by decide)

/-- Effect of one `put` on the payload pending for its tile
(`fill.py` lines 186-193, restricted to the touched key). -/
def applyPut (acc : Option Payload) (fc tc : Color) (s : Finset Pos) : Payload :=
  match acc with
  | none => [((fc, tc), s)]
  | some w => insertA w (fc, tc) (((lookupA w (fc, tc)).getD ∅) ∪ s)

theorem putW_lookup_self {st : WI} {t : Tile} {s : Finset Pos}
    {fc tc : Color} :
    lookupA (putW st t s fc tc).data t
      = some (applyPut (lookupA st.data t) fc tc s) := by
  unfold putW applyPut
  cases hl : lookupA st.data t <;> simp [hl, lookupA_insertA_self]

theorem putW_processing {st : WI} {t : Tile} {s : Finset Pos}
    {fc tc : Color} : (putW st t s fc tc).processing = st.processing := by
  unfold putW
  cases lookupA st.data t <;> rfl

theorem putW_lookup_ne {st : WI} {t t' : Tile} {s : Finset Pos}
    {fc tc : Color} (hne : t ≠ t') :
    lookupA (putW st t s fc tc).data t' = lookupA st.data t' := by
  unfold putW
  cases hl : lookupA st.data t <;> simp [lookupA_insertA_ne hne]

theorem stepC_frame {st st' : WI} {n d n' d' : Nat} {op : EngineOp}
    {t : Tile} (hop : tileOf op ≠ t)
    (h : stepC (st, n, d) op = some (st', n', d')) :
    lookupA st'.data t = lookupA st.data t ∧
    (t ∈ st'.processing ↔ t ∈ st.processing) := by
  cases op with
  | put t' fc tc seeds =>
    simp only [tileOf] at hop
    simp only [stepC, Option.some.injEq, Prod.mk.injEq] at h
    obtain ⟨rfl, rfl, rfl⟩ := h
    exact ⟨putW_lookup_ne hop, by rw [putW_processing]⟩
  | get t' =>
    simp only [tileOf] at hop
    simp only [stepC] at h
    cases hg : getW st t' with
    | none =>
      rw [hg] at h
      cases h
    | some r =>
      rw [hg] at h
      simp only [Option.map_some', Option.some.injEq, Prod.mk.injEq] at h
      obtain ⟨hst, rfl, rfl⟩ := h
      obtain ⟨w, st2⟩ := r
      obtain ⟨hl, hp, rfl⟩ := getW_eq_some.mp hg
      subst hst
      refine ⟨lookupA_eraseA_ne hop, ?_⟩
      simp only [List.mem_cons]
      constructor
      · rintro (rfl | hmem)
        · exact absurd rfl hop
        · exact hmem
      · exact Or.inr
  | done t' =>
    simp only [tileOf] at hop
    simp only [stepC] at h
    unfold taskDone at h
    by_cases hp : t' ∈ st.processing
    · rw [if_pos hp] at h
      by_cases hneg : st.unfinished_tasks - 1 < 0
      · rw [if_pos hneg] at h
        cases h
      · rw [if_neg hneg] at h
        simp only [Option.some.injEq, Prod.mk.injEq] at h
        obtain ⟨rfl, rfl, rfl⟩ := h
        exact ⟨rfl, List.mem_erase_of_ne (fun he => hop he.symm)⟩
    · rw [if_neg hp] at h
      cases h

theorem runC_puts_pending (t : Tile) (fc tc : Color) :
    ∀ (ops : List EngineOp) (st st' : WI) (n d n' d' : Nat)
      (ss : List (Finset Pos)),
      runC (st, n, d) ops = some (st', n', d') →
      ops.filter (fun op => tileOf op == t)
        = ss.map (fun x => EngineOp.put t fc tc x) →
      lookupA st'.data t
        = ss.foldl (fun acc x => some (applyPut acc fc tc x))
            (lookupA st.data t) ∧
      (t ∈ st'.processing ↔ t ∈ st.processing) := by
  intro ops
  induction ops with
  | nil =>
    intro st st' n d n' d' ss h hf
    simp only [runC, Option.some.injEq, Prod.mk.injEq] at h
    obtain ⟨rfl, rfl, rfl⟩ := h
    simp only [List.filter_nil] at hf
    obtain rfl : ss = [] := by
      cases ss with
      | nil => rfl
      | cons a r => cases hf
    exact ⟨rfl, Iff.rfl⟩
  | cons op ops ih =>
    intro st st' n d n' d' ss h hf
    unfold runC at h
    cases hs : stepC (st, n, d) op with
    | none =>
      rw [hs] at h
      cases h
    | some s2 =>
      rw [hs] at h
      obtain ⟨st2, n2, d2⟩ := s2
      by_cases hto : tileOf op = t
      · rw [List.filter_cons_of_pos (by simp [hto])] at hf
        cases ss with
        | nil => cases hf
        | cons s1 rest =>
          simp only [List.map_cons, List.cons.injEq] at hf
          obtain ⟨hop, hrest⟩ := hf
          subst hop
          simp only [stepC, Option.some.injEq, Prod.mk.injEq] at hs
          obtain ⟨rfl, rfl, rfl⟩ := hs
          obtain ⟨ha, hb⟩ := ih (putW st t s1 fc tc) st' _ _ _ _ rest h hrest
          refine ⟨?_, ?_⟩
          · rw [ha, putW_lookup_self, List.foldl_cons]
          · rw [hb, putW_processing]
      · rw [List.filter_cons_of_neg (by simp [hto])] at hf
        obtain ⟨ha, hb⟩ := ih st2 st' _ _ _ _ ss h hf
        obtain ⟨hfr1, hfr2⟩ := stepC_frame hto hs
        exact ⟨by rw [ha, hfr1], by rw [hb, hfr2]⟩

theorem applyPut_foldl (fc tc : Color) :
    ∀ (rest : List (Finset Pos)) (acc : Finset Pos),
      rest.foldl (fun a x => some (applyPut a fc tc x))
          (some [((fc, tc), acc)])
        = some [((fc, tc), rest.foldl (· ∪ ·) acc)] := by
  intro rest
  induction rest with
  | nil =>
    intro acc
    rfl
  | cons s1 r ih =>
    intro acc
    simp only [List.foldl_cons]
    rw [show applyPut (some [((fc, tc), acc)]) fc tc s1
        = [((fc, tc), acc ∪ s1)] by simp [applyPut, lookupA, insertA]]
    exact ih (acc ∪ s1)

/-- C4.  Submitting N ≥ 1 units for the same tile and the same
`(from_color, to_color)` pair (with pairwise-disjoint seed sets and no
intervening `get`/`task_done` of that tile; operations on other tiles may
interleave freely) merges into one pending entry whose seed set is the
union of all N; the single subsequent `get` of that tile atomically
claims exactly that union and marks the tile in flight, after which a
second `get` of it is impossible. -/
theorem c4_n_disjoint_puts_merge_to_one_claim
    (ops : List EngineOp) (st0 st : WI) (n0 d0 n d : Nat)
    (t : Tile) (fc tc : Color) (s1 : Finset Pos) (rest : List (Finset Pos))
    (hdisj : (s1 :: rest).Pairwise Disjoint)
    (h : runC (st0, n0, d0) ops = some (st, n, d))
    (hf : ops.filter (fun op => tileOf op == t)
      = (s1 :: rest).map (fun x => EngineOp.put t fc tc x))
    (h0 : lookupA st0.data t = none) (hp0 : t ∉ st0.processing) :
    ∃ st2 : WI,
      getW st t
        = some ([((fc, tc), (s1 :: rest).foldl (· ∪ ·) ∅)], st2) ∧
      st2.processing = t :: st.processing ∧
      getW st2 t = none := by
  obtain ⟨ha, hb⟩ := runC_puts_pending t fc tc ops st0 st n0 d0 n d
    (s1 :: rest) h hf
  rw [h0, List.foldl_cons] at ha
  have ha' : lookupA st.data t
      = some [((fc, tc), rest.foldl (· ∪ ·) s1)] := by
    rw [ha]
    exact applyPut_foldl fc tc rest s1
  have hs_union : (s1 :: rest).foldl (· ∪ ·) ∅ = rest.foldl (· ∪ ·) s1 := by
    simp [List.foldl_cons]
  have hpt : t ∉ st.processing := fun hmem => hp0 (hb.mp hmem)
  refine ⟨{ st with
    data := eraseA st.data t
    processing := t :: st.processing }, ?_, rfl, ?_⟩
  · rw [getW_eq_some]
    exact ⟨by rw [ha', hs_union], hpt, rfl⟩
  · exact getW_none_of_processing (by simp)

theorem c4_witness :
    ∃ st2 : WI,
      getW (⟨[(((0 : Int), (0 : Int)),
          [((blackC, redC), {((1 : Int), (1 : Int))} ∪ {((2 : Int), (2 : Int))})]),
        (((7 : Int), (7 : Int)),
          [((blackC, redC), ({((3 : Int), (3 : Int))} : Finset Pos))])], [], 2⟩ : WI)
        ((0 : Int), (0 : Int))
        = some ([((blackC, redC),
            (({((1 : Int), (1 : Int))} : Finset Pos) ::
              [({((2 : Int), (2 : Int))} : Finset Pos)]).foldl (· ∪ ·) ∅)], st2) ∧
      st2.processing = ((0 : Int), (0 : Int)) ::
        (⟨[(((0 : Int), (0 : Int)),
          [((blackC, redC), {((1 : Int), (1 : Int))} ∪ {((2 : Int), (2 : Int))})]),
        (((7 : Int), (7 : Int)),
          [((blackC, redC), ({((3 : Int), (3 : Int))} : Finset Pos))])], [], 2⟩ : WI).processing ∧
      getW st2 ((0 : Int), (0 : Int)) = none :=
  c4_n_disjoint_puts_merge_to_one_claim
    [EngineOp.put ((0 : Int), (0 : Int)) blackC redC {((1 : Int), (1 : Int))},
     EngineOp.put ((7 : Int), (7 : Int)) blackC redC {((3 : Int), (3 : Int))},
     EngineOp.put ((0 : Int), (0 : Int)) blackC redC {((2 : Int), (2 : Int))}]
    WI.init
    ⟨[(((0 : Int), (0 : Int)),
        [((blackC, redC), {((1 : Int), (1 : Int))} ∪ {((2 : Int), (2 : Int))})]),
      (((7 : Int), (7 : Int)),
        [((blackC, redC), ({((3 : Int), (3 : Int))} : Finset Pos))])], [], 2⟩
    0 0 2 0 ((0 : Int), (0 : Int)) blackC redC
    {((1 : Int), (1 : Int))} [{((2 : Int), (2 : Int))}]
    (by decide)
    rfl
    rfl
    rfl
    (by decide)

/-- 8-connected reachability from `p0` through in-bounds pixels that all
hold color `c` in the (unmutated) surface `pix` — the path the spec's
"8-connected to the seed through same-colored pixels" describes. -/
inductive Reach (w h : Int) (pix : Pix) (c : Color) (p0 : Pos) : Pos → Prop
  | refl : inB w h p0 = true → pix p0 = c → Reach w h pix c p0 p0
  | step {q r : Pos} : Reach w h pix c p0 q → adjacent q r →
      inB w h r = true → pix r = c → Reach w h pix c p0 r

theorem fillLoop_reach (w h : Int) (start colr : Color) (pix0 : Pix)
    (p0 : Pos) (hcol : colr ≠ start) (hp0b : inB w h p0 = true)
    (hp0c : pix0 p0 = start) :
    ∀ (pix : Pix) (frontier visited : List Pos) (pix' : Pix),
      fillLoop w h start colr pix frontier visited = some pix' →
      (∀ q, pix q ≠ pix0 q →
        pix0 q = start ∧ pix q = colr ∧ Reach w h pix0 start p0 q) →
      (∀ q ∈ frontier, inB w h q = true ∧
        (q = p0 ∨ ∃ r, Reach w h pix0 start p0 r ∧ adjacent r q)) →
      ∀ q, pix' q ≠ pix0 q → Reach w h pix0 start p0 q := by
  intro pix frontier visited
  induction pix, frontier, visited using fillLoop.induct w h start colr with
  | case1 pix visited =>
    intro pix' heq hA hB q hq
    rw [fillLoop_nil, Option.some.injEq] at heq
    subst heq
    exact (hA q hq).2.2
  | case2 pix p rest visited hv ih =>
    intro pix' heq hA hB
    rw [fillLoop_visited hv] at heq
    exact ih pix' heq hA (fun q hq => hB q (List.mem_cons_of_mem p hq))
  | case3 pix p rest visited hv hb hc ih =>
    intro pix' heq hA hB
    rw [fillLoop_skip hv hb hc] at heq
    exact ih pix' heq hA (fun q hq => hB q (List.mem_cons_of_mem p hq))
  | case4 pix p rest visited hv hb hc ih =>
    intro pix' heq hA hB
    rw [fillLoop_write hv hb (not_not.mp hc)] at heq
    have hps : pix0 p = start := by
      by_cases hpp : pix p = pix0 p
      · rw [← hpp]
        exact not_not.mp hc
      · exact (hA p hpp).1
    have hRP : Reach w h pix0 start p0 p := by
      rcases hB p (List.mem_cons_self p rest) with ⟨hbp, rfl | ⟨r, hR, hadj⟩⟩
      · exact Reach.refl hp0b hp0c
      · exact Reach.step hR hadj hb hps
    refine ih pix' heq ?_ ?_
    · intro q hq
      by_cases hqp : q = p
      · subst hqp
        exact ⟨hps, by simp [setPix], hRP⟩
      · rw [show setPix pix p colr q = pix q by simp [setPix, hqp]] at hq
        obtain ⟨h1, h2, h3⟩ := hA q hq
        exact ⟨h1, by simp [setPix, hqp, h2], h3⟩
    · intro q hq
      rcases List.mem_append.mp hq with hq1 | hq2
      · exact hB q (List.mem_cons_of_mem p hq1)
      · have hqn : q ∈ neighbors w h p := List.mem_of_mem_filter hq2
        obtain ⟨hqb, hqa⟩ := mem_neighbors.mp hqn
        exact ⟨hqb, Or.inr ⟨p, hRP, hqa⟩⟩
  | case5 pix p rest visited hv hb =>
    intro pix' heq hA hB
    rw [fillLoop_oob hv hb] at heq
    cases heq

theorem fillLoop_pix_of_colr_eq_start (w h : Int) (start colr : Color)
    (hcs : colr = start) (pix0 : Pix) :
    ∀ (pix : Pix) (frontier visited : List Pos) (pix' : Pix),
      fillLoop w h start colr pix frontier visited = some pix' →
      (∀ q, pix q = pix0 q) → ∀ q, pix' q = pix0 q := by
  intro pix frontier visited
  induction pix, frontier, visited using fillLoop.induct w h start colr with
  | case1 pix visited =>
    intro pix' heq henv
    rw [fillLoop_nil, Option.some.injEq] at heq
    subst heq
    exact henv
  | case2 pix p rest visited hv ih =>
    intro pix' heq henv
    rw [fillLoop_visited hv] at heq
    exact ih pix' heq henv
  | case3 pix p rest visited hv hb hc ih =>
    intro pix' heq henv
    rw [fillLoop_skip hv hb hc] at heq
    exact ih pix' heq henv
  | case4 pix p rest visited hv hb hc ih =>
    intro pix' heq henv
    rw [fillLoop_write hv hb (not_not.mp hc)] at heq
    refine ih pix' heq ?_
    intro q
    by_cases hqp : q = p
    · subst hqp
      rw [show setPix pix q colr q = colr by simp [setPix]]
      rw [hcs, ← not_not.mp hc]
      exact henv q
    · rw [show setPix pix p colr q = pix q by simp [setPix, hqp]]
      exact henv q
  | case5 pix p rest visited hv hb =>
    intro pix' heq henv
    rw [fillLoop_oob hv hb] at heq
    cases heq

/-- C8.  After `fill(surface, seed, color)` returns, every pixel whose
value changed is 8-connected to the seed through a path of pixels that
all originally held the seed's start color; a pixel not so connected is
never changed. -/
theorem c8_fill_changes_only_8_connected_pixels
    (w h : Int) (pix : Pix) (seed : Pos) (colr : Color) (pix' : Pix)
    (hrun : fill w h pix seed colr = some pix') :
    ∀ q, pix' q ≠ pix q → Reach w h pix (pix seed) seed q := by
  unfold fill at hrun
  by_cases hbs : inB w h seed
  · rw [if_pos hbs] at hrun
    by_cases hcs : colr = pix seed
    · intro q hq
      exact absurd
        (fillLoop_pix_of_colr_eq_start w h (pix seed) colr hcs pix
          pix [seed] [] pix' hrun (fun _ => rfl) q) hq
    · refine fillLoop_reach w h (pix seed) colr pix seed hcs hbs rfl
        pix [seed] [] pix' hrun (fun q hq => absurd rfl hq) ?_
      intro q hq
      rw [List.mem_singleton] at hq
      subst hq
      exact ⟨hbs, Or.inl rfl⟩
  · rw [if_neg hbs] at hrun
    cases hrun

theorem c8_witness :
    Reach 1 1 (fun _ => blackC) blackC ((0 : Int), (0 : Int))
      ((0 : Int), (0 : Int)) :=
  c8_fill_changes_only_8_connected_pixels 1 1 (fun _ => blackC)
    ((0 : Int), (0 : Int)) redC
    (setPix (fun _ => blackC) ((0 : Int), (0 : Int)) redC)
    (by simp [fill, fillLoop, inB, setPix, neighbors, neighborCands,
      blackC, redC])
    ((0 : Int), (0 : Int)) (by decide)

end DsaFill
